import Mathlib

set_option maxHeartbeats 1000000

namespace SemanticSearch

/-!  Verification development for the semantic-search-engine repository.

Python strings are modelled as `List Char`; Python `str.split()` /
`' '.join` / `str.strip()` are embedded below, together with the
sliding-window chunker of `src/app/chunk.py`, the query normalisation of
`src/app/preprocessing.py`, the FTS synchronisation triggers of
`src/app/db.py`, and the index build / search pipeline of
`src/app/search.py` and `src/app/main.py`.
-/

/-- Python's notion of whitespace, as used by `str.split()` and `str.strip()`. -/
def isWS (c : Char) : Bool := c.isWhitespace

/-- Helper for `splitWS`; `acc` is the word currently being scanned. -/
def splitWSAux : List Char → List Char → List (List Char)
  | [], acc => if acc = [] then [] else [acc]
  | c :: cs, acc =>
    if isWS c then
      (if acc = [] then splitWSAux cs [] else acc :: splitWSAux cs [])
    else
      splitWSAux cs (acc ++ [c])

/-- Embedding of Python `text.split()`: split on runs of whitespace,
dropping empty parts (so leading and trailing whitespace is ignored). -/
def splitWS (s : List Char) : List (List Char) := splitWSAux s []

/-- Embedding of Python `' '.join(parts)`. -/
def joinSpace : List (List Char) → List Char
  | [] => []
  | [u] => u
  | u :: us => u ++ ' ' :: joinSpace us

/-- Embedding of the while-loop of `sliding_window_chunk`
(src/app/chunk.py, lines 10-31).  Each loop iteration consumes one unit of
`fuel`; `none` models a run of the loop that performs more iterations than
`fuel`, so `(∀ fuel, chunkSteps t w o fuel s = none)` says the Python loop
never terminates.  For `overlap ≤ window_size` the Nat subtraction
`window_size - overlap` agrees with Python's integer subtraction. -/
def chunkSteps (tokens : List (List Char)) (window_size overlap : Nat) :
    Nat → Nat → Option (List (List (List Char)))
  | 0, _ => none
  | fuel + 1, start =>
    if start < tokens.length then
      let chunk := (tokens.drop start).take window_size
      if tokens.length ≤ start + window_size then
        some [chunk]
      else
        (chunkSteps tokens window_size overlap fuel (start + (window_size - overlap))).map
          (fun rest => chunk :: rest)
    else
      some []

/-- Embedding of `sliding_window_chunk` (src/app/chunk.py): tokenize by
whitespace, slice windows `tokens[start : start + window_size]` advancing
`start` by `window_size - overlap`, break once a window's unclamped end
reaches the token count, and join each window with single spaces.  Fuel
`L + 1` covers every terminating run of the Python loop, since each
iteration that continues advances `start` by at least one whenever
`overlap < window_size`. -/
def sliding_window_chunk (text : List Char) (window_size : Nat := 200)
    (overlap : Nat := 50) : Option (List (List Char)) :=
  (chunkSteps (splitWS text) window_size overlap ((splitWS text).length + 1) 0).map
    (fun cs => cs.map joinSpace)

/-- Embedding of Python `s.strip()` (whitespace stripping at both ends). -/
def pyStrip (s : List Char) : List Char :=
  ((s.dropWhile isWS).reverse.dropWhile isWS).reverse

/-- Embedding of `clean_text` (src/app/preprocessing.py, line 7):
`" ".join(text.strip().split())`. -/
def clean_text (s : List Char) : List Char := joinSpace (splitWS (pyStrip s))

/-- Pair of adjacent characters that are not both whitespace. -/
def noWSPair (a b : Char) : Prop := isWS a = false ∨ isWS b = false

theorem splitWSAux_words (s : List Char) :
    ∀ acc : List Char, (∀ c ∈ acc, isWS c = false) →
      ∀ u ∈ splitWSAux s acc, u ≠ [] ∧ ∀ c ∈ u, isWS c = false := by
  induction s with
  | nil =>
    intro acc hacc u hu
    by_cases h : acc = []
    · simp [splitWSAux, h] at hu
    · simp only [splitWSAux, if_neg h, List.mem_singleton] at hu
      subst hu
      exact ⟨h, hacc⟩
  | cons c cs ih =>
    intro acc hacc u hu
    simp only [splitWSAux] at hu
    by_cases hws : isWS c = true
    · rw [if_pos hws] at hu
      by_cases h : acc = []
      · rw [if_pos h] at hu
        exact ih [] (by simp) u hu
      · rw [if_neg h] at hu
        rcases List.mem_cons.mp hu with rfl | hu
        · exact ⟨h, hacc⟩
        · exact ih [] (by simp) u hu
    · rw [if_neg hws] at hu
      refine ih (acc ++ [c]) ?_ u hu
      intro d hd
      rcases List.mem_append.mp hd with hd | hd
      · exact hacc d hd
      · simp only [List.mem_singleton] at hd
        subst hd
        simpa using hws

theorem splitWS_words (s : List Char) :
    ∀ u ∈ splitWS s, u ≠ [] ∧ ∀ c ∈ u, isWS c = false :=
  splitWSAux_words s [] (by simp)

theorem splitWSAux_append_word (u : List Char) (hu : ∀ c ∈ u, isWS c = false) :
    ∀ s acc : List Char, splitWSAux (u ++ s) acc = splitWSAux s (acc ++ u) := by
  induction u with
  | nil => intro s acc; simp
  | cons c u ih =>
    intro s acc
    have hc : isWS c = false := hu c (by simp)
    simp only [List.cons_append, splitWSAux, hc, Bool.false_eq_true, if_false, List.append_eq]
    rw [ih (fun d hd => hu d (by simp [hd])) s (acc ++ [c])]
    simp

theorem splitWS_joinSpace (ws : List (List Char))
    (h : ∀ u ∈ ws, u ≠ [] ∧ ∀ c ∈ u, isWS c = false) :
    splitWS (joinSpace ws) = ws := by
  induction ws with
  | nil => rfl
  | cons u us ih =>
    have hu := h u (by simp)
    cases us with
    | nil =>
      show splitWSAux (joinSpace [u]) [] = [u]
      have : joinSpace [u] = u ++ [] := by simp [joinSpace]
      rw [this, splitWSAux_append_word u hu.2]
      simp [splitWSAux, hu.1]
    | cons v vs =>
      show splitWSAux (u ++ ' ' :: joinSpace (v :: vs)) [] = u :: v :: vs
      rw [splitWSAux_append_word u hu.2]
      have hsp : isWS ' ' = true := by decide
      simp only [List.nil_append, splitWSAux, hsp, if_pos, if_neg hu.1]
      exact congrArg (fun l => u :: l) (ih (fun w hw => h w (by simp [hw])))

theorem joinSpace_ne_nil (ws : List (List Char)) (hne : ws ≠ [])
    (h : ∀ u ∈ ws, u ≠ []) : joinSpace ws ≠ [] := by
  cases ws with
  | nil => exact absurd rfl hne
  | cons u us =>
    cases us with
    | nil => simpa [joinSpace] using h u (by simp)
    | cons v vs => simp [joinSpace]

theorem joinSpace_head_not_ws (ws : List (List Char))
    (h : ∀ u ∈ ws, u ≠ [] ∧ ∀ c ∈ u, isWS c = false) :
    ∀ c, (joinSpace ws).head? = some c → isWS c = false := by
  intro c hc
  cases ws with
  | nil => simp [joinSpace] at hc
  | cons u us =>
    obtain ⟨hu1, hu2⟩ := h u (by simp)
    obtain ⟨d, u', rfl⟩ := List.exists_cons_of_ne_nil hu1
    cases us with
    | nil =>
      simp only [joinSpace, List.head?_cons, Option.some.injEq] at hc
      subst hc
      exact hu2 _ (List.mem_cons_self _ _)
    | cons v vs =>
      simp only [joinSpace, List.cons_append, List.head?_cons, Option.some.injEq] at hc
      subst hc
      exact hu2 _ (List.mem_cons_self _ _)

theorem mem_of_getLast?_eq_some {l : List Char} {c : Char}
    (hc : l.getLast? = some c) : c ∈ l := by
  obtain ⟨h, rfl⟩ := List.mem_getLast?_eq_getLast (Option.mem_def.mpr hc)
  exact List.getLast_mem h

theorem joinSpace_getLast_not_ws (ws : List (List Char))
    (h : ∀ u ∈ ws, u ≠ [] ∧ ∀ c ∈ u, isWS c = false) :
    ∀ c, (joinSpace ws).getLast? = some c → isWS c = false := by
  induction ws with
  | nil => intro c hc; simp [joinSpace] at hc
  | cons u us ih =>
    intro c hc
    obtain ⟨hu1, hu2⟩ := h u (by simp)
    cases us with
    | nil =>
      have : joinSpace [u] = u := by simp [joinSpace]
      rw [this] at hc
      exact hu2 c (mem_of_getLast?_eq_some hc)
    | cons v vs =>
      have hJ : joinSpace (u :: v :: vs) = u ++ ' ' :: joinSpace (v :: vs) := rfl
      rw [hJ, List.getLast?_append_of_ne_nil _ (by simp)] at hc
      have hvs : joinSpace (v :: vs) ≠ [] :=
        joinSpace_ne_nil _ (by simp) (fun w hw => (h w (by simp [hw])).1)
      rw [show (' ' :: joinSpace (v :: vs)) = [' '] ++ joinSpace (v :: vs) from rfl,
        List.getLast?_append_of_ne_nil _ hvs] at hc
      exact ih (fun w hw => h w (by simp [hw])) c hc

theorem word_chain' (u : List Char) (h : ∀ c ∈ u, isWS c = false) :
    u.Chain' noWSPair := by
  induction u with
  | nil => exact List.chain'_nil
  | cons c u ih =>
    rw [List.chain'_cons']
    refine ⟨fun b _ => Or.inl (h c (by simp)), ih (fun d hd => h d (by simp [hd]))⟩

theorem joinSpace_chain' (ws : List (List Char))
    (h : ∀ u ∈ ws, u ≠ [] ∧ ∀ c ∈ u, isWS c = false) :
    (joinSpace ws).Chain' noWSPair := by
  induction ws with
  | nil => exact List.chain'_nil
  | cons u us ih =>
    obtain ⟨hu1, hu2⟩ := h u (by simp)
    cases us with
    | nil =>
      have : joinSpace [u] = u := by simp [joinSpace]
      rw [this]
      exact word_chain' u hu2
    | cons v vs =>
      have hJ : joinSpace (u :: v :: vs) = u ++ ' ' :: joinSpace (v :: vs) := rfl
      rw [hJ, List.chain'_append]
      refine ⟨word_chain' u hu2, ?_, ?_⟩
      · rw [List.chain'_cons']
        refine ⟨?_, ih (fun w hw => h w (by simp [hw]))⟩
        intro b hb
        exact Or.inr (joinSpace_head_not_ws _ (fun w hw => h w (by simp [hw])) b hb)
      · intro x hx y _
        exact Or.inl (hu2 x (mem_of_getLast?_eq_some hx))

theorem dropWhile_eq_self_of_head (p : Char → Bool) (l : List Char)
    (h : ∀ c, l.head? = some c → p c = false) : l.dropWhile p = l := by
  cases l with
  | nil => rfl
  | cons c cs => simp [List.dropWhile_cons, h c rfl]

theorem pyStrip_joinSpace (ws : List (List Char))
    (h : ∀ u ∈ ws, u ≠ [] ∧ ∀ c ∈ u, isWS c = false) :
    pyStrip (joinSpace ws) = joinSpace ws := by
  unfold pyStrip
  rw [dropWhile_eq_self_of_head isWS _ (joinSpace_head_not_ws ws h)]
  rw [dropWhile_eq_self_of_head isWS _ ?_, List.reverse_reverse]
  intro c hc
  rw [List.head?_reverse] at hc
  exact joinSpace_getLast_not_ws ws h c hc

theorem chunkSteps_spec (tokens : List (List Char)) (w o : Nat) (ho : o < w) :
    ∀ fuel start : Nat, tokens.length - start < fuel →
      ∃ cs, chunkSteps tokens w o fuel start = some cs ∧
        cs.length = (if tokens.length ≤ start then 0 else
          ((tokens.length - start - o).max 1 + (w - o) - 1) / (w - o)) ∧
        (∀ c ∈ cs, ∃ st, st < tokens.length ∧ c = (tokens.drop st).take w) ∧
        (cs.map (List.drop o)).flatten = tokens.drop (start + o) ∧
        (∀ c rest, cs = c :: rest →
          c ++ (rest.map (List.drop o)).flatten = tokens.drop start) ∧
        (cs = [] → tokens.length ≤ start) := by
  intro fuel
  induction fuel with
  | zero => intro start h; omega
  | succ fuel ih =>
    intro start h
    by_cases h1 : start < tokens.length
    · by_cases h2 : tokens.length ≤ start + w
      · refine ⟨[(tokens.drop start).take w], ?_, ?_, ?_, ?_, ?_, ?_⟩
        · simp [chunkSteps, h1, h2]
        · simp only [List.length_singleton]
          rw [if_neg (by omega)]
          have hA : (tokens.length - start - o).max 1 ≤ w - o :=
            Nat.max_le.mpr ⟨by omega, by omega⟩
          have hB : 1 ≤ (tokens.length - start - o).max 1 := Nat.le_max_right _ _
          symm
          apply Nat.div_eq_of_lt_le
          · omega
          · omega
        · intro c hc
          simp only [List.mem_singleton] at hc
          exact ⟨start, h1, hc⟩
        · simp only [List.map_cons, List.map_nil, List.flatten_cons, List.flatten_nil,
            List.append_nil]
          rw [List.drop_take, List.drop_drop]
          exact List.take_of_length_le (by rw [List.length_drop]; omega)
        · intro c rest hcr
          cases hcr
          simp only [List.map_nil, List.flatten_nil, List.append_nil]
          exact List.take_of_length_le (by rw [List.length_drop]; omega)
        · intro hnil
          simp at hnil
      · have hlt : tokens.length - (start + (w - o)) < fuel := by omega
        obtain ⟨cs', hcs', hlen', hmem', hflat', _, _⟩ := ih (start + (w - o)) hlt
        refine ⟨(tokens.drop start).take w :: cs', ?_, ?_, ?_, ?_, ?_, ?_⟩
        · simp [chunkSteps, h1, h2, hcs']
        · simp only [List.length_cons]
          rw [if_neg (by omega), hlen', if_neg (by omega)]
          have hs : 0 < w - o := by omega
          have hmax1 : (tokens.length - start - o).max 1 = tokens.length - start - o :=
            Nat.max_eq_left (by omega)
          have hmax2 : (tokens.length - (start + (w - o)) - o).max 1
              = tokens.length - start - o - (w - o) := by
            have h9 : (tokens.length - (start + (w - o)) - o).max 1
                = tokens.length - (start + (w - o)) - o := Nat.max_eq_left (by omega)
            rw [h9]
            omega
          rw [hmax1, hmax2]
          have harith : tokens.length - start - o + (w - o) - 1
              = (tokens.length - start - o - (w - o) + (w - o) - 1) + (w - o) := by omega
          rw [harith, Nat.add_div_right _ hs]
        · intro c hc
          rcases List.mem_cons.mp hc with rfl | hc
          · exact ⟨start, h1, rfl⟩
          · exact hmem' c hc
        · simp only [List.map_cons, List.flatten_cons]
          rw [hflat', List.drop_take, List.drop_drop]
          have e2 : tokens.drop (start + (w - o) + o)
              = (tokens.drop (start + o)).drop (w - o) := by
            rw [List.drop_drop]
            congr 1
            omega
          rw [e2]
          exact List.take_append_drop _ _
        · intro c rest hcr
          cases hcr
          rw [hflat']
          have hidx : start + (w - o) + o = start + w := by omega
          rw [hidx]
          have hd : tokens.drop (start + w) = (tokens.drop start).drop w := by
            rw [List.drop_drop]
          rw [hd]
          exact List.take_append_drop _ _
        · intro hnil
          simp at hnil
    · refine ⟨[], ?_, ?_, ?_, ?_, ?_, ?_⟩
      · simp [chunkSteps, h1]
      · rw [if_pos (by omega)]
        rfl
      · intro c hc
        simp at hc
      · simp only [List.map_nil, List.flatten_nil]
        symm
        exact List.drop_eq_nil_of_le (by omega)
      · intro c rest hcr
        simp at hcr
      · intro
        omega

/-- Seven-token example text "a b c d e f g" from the specification. -/
def exText7 : List Char := ['a', ' ', 'b', ' ', 'c', ' ', 'd', ' ', 'e', ' ', 'f', ' ', 'g']

/-- Token reconstruction used by claim C4: the first chunk's whitespace
tokens followed, for every later chunk, by its whitespace tokens after the
first `overlap` of them. -/
def tokenRecon (overlap : Nat) : List (List Char) → List (List Char)
  | [] => []
  | c :: rest => splitWS c ++ (rest.map (fun r => (splitWS r).drop overlap)).flatten

/-- C1: for every input text whose whitespace tokenization has L tokens and
every valid configuration (window_size > 0, 0 ≤ overlap < window_size),
sliding_window_chunk returns exactly
ceil(max(L - overlap, 1) / (window_size - overlap)) chunks when L > 0 — the
ceiling written in the usual (a + d - 1) / d form — and the empty list when
L = 0. -/
theorem C1_chunk_count (text : List Char) (window_size overlap : Nat)
    (_hw : 0 < window_size) (ho : overlap < window_size) :
    ∃ cs, sliding_window_chunk text window_size overlap = some cs ∧
      cs.length = if (splitWS text).length = 0 then 0 else
        (((splitWS text).length - overlap).max 1 + (window_size - overlap) - 1) /
          (window_size - overlap) := by
  obtain ⟨cs, hcs, hlen, -, -, -, -⟩ :=
    chunkSteps_spec (splitWS text) window_size overlap ho ((splitWS text).length + 1) 0
      (by omega)
  simp only [Nat.sub_zero] at hlen
  refine ⟨cs.map joinSpace, ?_, ?_⟩
  · simp [sliding_window_chunk, hcs]
  · rw [List.length_map, hlen]
    rcases Nat.eq_zero_or_pos (splitWS text).length with h0 | h0
    · rw [if_pos (by omega), if_pos h0]
    · rw [if_neg (by omega), if_neg (by omega)]

/-- Witness for C1 at the seven-token text "a b c d e f g" with
window_size = 4 and overlap = 1. -/
theorem C1_chunk_count_witness :
    ∃ cs, sliding_window_chunk exText7 4 1 = some cs ∧
      cs.length = if (splitWS exText7).length = 0 then 0 else
        (((splitWS exText7).length - 1).max 1 + (4 - 1) - 1) / (4 - 1) :=
  C1_chunk_count exText7 4 1 (by decide) (by decide)

/-- C3 (evaluation of the code at a failing input): with
window_size = overlap = 1 — an `overlap ≥ window_size` configuration — on the
two-token text "a b", the loop of sliding_window_chunk advances `start` by
zero each iteration and never terminates: every fuel bound is exhausted.
src/app/chunk.py contains no parameter validation and no ConfigurationError,
contradicting the specification's requirement. -/
theorem C3_invalid_config_loops_forever :
    sliding_window_chunk ['a', ' ', 'b'] 1 1 = none ∧
    ∀ fuel, chunkSteps [['a'], ['b']] 1 1 fuel 0 = none := by
  have key : ∀ fuel, chunkSteps [['a'], ['b']] 1 1 fuel 0 = none := by
    intro fuel
    induction fuel with
    | zero => rfl
    | succ n ih => simp [chunkSteps, ih]
  refine ⟨?_, key⟩
  have hsp : splitWS ['a', ' ', 'b'] = [['a'], ['b']] := by decide
  simp [sliding_window_chunk, hsp, key]

/-- C4: for every input text and every valid configuration, concatenating
the first chunk's token list with each later chunk's tokens after its first
`overlap` tokens reconstructs the whitespace token sequence of the input
exactly. -/
theorem C4_reconstruction (text : List Char) (window_size overlap : Nat)
    (_hw : 0 < window_size) (ho : overlap < window_size)
    (cs : List (List Char))
    (hcs : sliding_window_chunk text window_size overlap = some cs) :
    tokenRecon overlap cs = splitWS text := by
  obtain ⟨cs0, hcs0, -, hmem, -, hcons, hnil⟩ :=
    chunkSteps_spec (splitWS text) window_size overlap ho ((splitWS text).length + 1) 0
      (by omega)
  rw [sliding_window_chunk, hcs0] at hcs
  simp only [Option.map_some', Option.some.injEq] at hcs
  subst hcs
  have hwords : ∀ c ∈ cs0, splitWS (joinSpace c) = c := by
    intro c hc
    obtain ⟨st, _, rfl⟩ := hmem c hc
    apply splitWS_joinSpace
    intro u hu
    exact splitWS_words text u (List.mem_of_mem_drop (List.mem_of_mem_take hu))
  cases cs0 with
  | nil =>
    simp only [List.map_nil, tokenRecon]
    have h0 := hnil rfl
    have h1 : splitWS text = [] := List.length_eq_zero.mp (by omega)
    rw [h1]
  | cons c rest =>
    simp only [List.map_cons, tokenRecon]
    rw [hwords c (by simp)]
    have hrw : (rest.map joinSpace).map (fun r => (splitWS r).drop overlap)
        = rest.map (List.drop overlap) := by
      rw [List.map_map]
      apply List.map_congr_left
      intro r hr
      simp only [Function.comp_apply]
      rw [hwords r (by simp [hr])]
    rw [hrw]
    have hc0 := hcons c rest rfl
    rw [List.drop_zero] at hc0
    exact hc0

/-- Witness for C4 at the literal example of the specification:
window_size = 4 and overlap = 1 on "a b c d e f g" yields the chunks
"a b c d" and "d e f g", whose token reconstruction is the original
seven tokens. -/
theorem C4_reconstruction_witness :
    tokenRecon 1 [['a', ' ', 'b', ' ', 'c', ' ', 'd'], ['d', ' ', 'e', ' ', 'f', ' ', 'g']]
      = splitWS exText7 :=
  C4_reconstruction exText7 4 1 (by decide) (by decide)
    [['a', ' ', 'b', ' ', 'c', ' ', 'd'], ['d', ' ', 'e', ' ', 'f', ' ', 'g']] (by decide)

/-- C9: for every input text and every valid configuration, every chunk
string returned by sliding_window_chunk is non-empty and its whitespace
tokenization has between 1 and window_size tokens. -/
theorem C9_chunk_shape (text : List Char) (window_size overlap : Nat)
    (hw : 0 < window_size) (ho : overlap < window_size)
    (cs : List (List Char))
    (hcs : sliding_window_chunk text window_size overlap = some cs) :
    ∀ c ∈ cs, c ≠ [] ∧ 1 ≤ (splitWS c).length ∧ (splitWS c).length ≤ window_size := by
  obtain ⟨cs0, hcs0, -, hmem, -, -, -⟩ :=
    chunkSteps_spec (splitWS text) window_size overlap ho ((splitWS text).length + 1) 0
      (by omega)
  rw [sliding_window_chunk, hcs0] at hcs
  simp only [Option.map_some', Option.some.injEq] at hcs
  subst hcs
  intro c hc
  obtain ⟨ct, hct, rfl⟩ := List.mem_map.mp hc
  obtain ⟨st, hst, rfl⟩ := hmem ct hct
  have hwords : ∀ u ∈ ((splitWS text).drop st).take window_size,
      u ≠ [] ∧ ∀ ch ∈ u, isWS ch = false := by
    intro u hu
    exact splitWS_words text u (List.mem_of_mem_drop (List.mem_of_mem_take hu))
  have hrt := splitWS_joinSpace _ hwords
  have hlen : (((splitWS text).drop st).take window_size).length
      = min window_size ((splitWS text).length - st) := by
    rw [List.length_take, List.length_drop]
  refine ⟨?_, ?_, ?_⟩
  · apply joinSpace_ne_nil
    · apply List.length_pos.mp
      rw [hlen]
      exact lt_min hw (by omega)
    · intro u hu
      exact (hwords u hu).1
  · rw [hrt, hlen]
    exact le_min hw (by omega)
  · rw [hrt, hlen]
    exact min_le_left _ _

/-- Witness for C9 at "a b c d e f g" with window_size = 4, overlap = 1,
checked on the first returned chunk "a b c d". -/
theorem C9_chunk_shape_witness :
    ['a', ' ', 'b', ' ', 'c', ' ', 'd'] ≠ [] ∧
    1 ≤ (splitWS ['a', ' ', 'b', ' ', 'c', ' ', 'd']).length ∧
    (splitWS ['a', ' ', 'b', ' ', 'c', ' ', 'd']).length ≤ 4 :=
  C9_chunk_shape exText7 4 1 (by decide) (by decide)
    [['a', ' ', 'b', ' ', 'c', ' ', 'd'], ['d', ' ', 'e', ' ', 'f', ' ', 'g']] (by decide)
    ['a', ' ', 'b', ' ', 'c', ' ', 'd'] (by decide)

/-- C10: clean_text is idempotent, and its output never has leading
whitespace, trailing whitespace, or two consecutive whitespace
characters. -/
theorem C10_clean_text_idempotent (s : List Char) :
    clean_text (clean_text s) = clean_text s ∧
    (∀ c, (clean_text s).head? = some c → isWS c = false) ∧
    (∀ c, (clean_text s).getLast? = some c → isWS c = false) ∧
    (clean_text s).Chain' noWSPair := by
  have hW : ∀ u ∈ splitWS (pyStrip s), u ≠ [] ∧ ∀ c ∈ u, isWS c = false :=
    splitWS_words (pyStrip s)
  refine ⟨?_, joinSpace_head_not_ws _ hW, joinSpace_getLast_not_ws _ hW,
    joinSpace_chain' _ hW⟩
  show clean_text (joinSpace (splitWS (pyStrip s))) = _
  unfold clean_text
  rw [pyStrip_joinSpace _ hW, splitWS_joinSpace _ hW]

/-! Embedding of the canonical `chunks` table and the secondary
`chunks_fts` full-text structure of src/app/db.py, together with the three
synchronisation triggers `chunks_ai`, `chunks_ad`, `chunks_au`.  A row
carries its SQLite rowid and the two indexed columns. -/

/-- Row of the `chunks` table, and likewise an entry of `chunks_fts`. -/
structure Row where
  rowid : Nat
  chunk_id : String
  text : String
deriving DecidableEq

/-- Canonical table together with the secondary full-text structure. -/
structure DBState where
  chunks : List Row
  fts : List Row
deriving DecidableEq

/-- INSERT INTO chunks: appends the row; the trigger `chunks_ai`
(src/app/db.py) then inserts the same (rowid, chunk_id, text) into
chunks_fts. -/
def db_insert (db : DBState) (r : Row) : DBState :=
  { chunks := db.chunks ++ [r], fts := db.fts ++ [r] }

/-- DELETE FROM chunks WHERE rowid = rid: removes the canonical row; for
each deleted row the trigger `chunks_ad` issues the fts5 'delete' command
with the old values, removing that rowid's entry from chunks_fts. -/
def db_delete (db : DBState) (rid : Nat) : DBState :=
  { chunks := db.chunks.filter (fun r => r.rowid != rid),
    fts := db.fts.filter (fun r => r.rowid != rid) }

/-- UPDATE chunks SET chunk_id = cid, text = t WHERE rowid = rid: rewrites
matching canonical rows in place; for each updated row the trigger
`chunks_au` issues the fts5 'delete' command with the old values followed
by an insert of the new values (the rowid is not changed by the update). -/
def db_update (db : DBState) (rid : Nat) (cid t : String) : DBState :=
  { chunks := db.chunks.map (fun r => if r.rowid = rid then ⟨rid, cid, t⟩ else r),
    fts := db.fts.filter (fun r => r.rowid != rid)
      ++ (db.chunks.filter (fun r => r.rowid == rid)).map (fun _ => ⟨rid, cid, t⟩) }

/-- Database states reachable from the empty schema by sequences of
canonical writes; SQLite gives every inserted row a rowid distinct from
all live rows. -/
inductive Reachable : DBState → Prop
  | init : Reachable ⟨[], []⟩
  | insert {db} (h : Reachable db) (r : Row)
      (fresh : ∀ r' ∈ db.chunks, r'.rowid ≠ r.rowid) : Reachable (db_insert db r)
  | delete {db} (h : Reachable db) (rid : Nat) : Reachable (db_delete db rid)
  | update {db} (h : Reachable db) (rid : Nat) (cid t : String) :
      Reachable (db_update db rid cid t)

/-- Full-text query against the secondary structure: the chunk_ids of the
indexed entries whose text matches the predicate. -/
def ftsQuery (P : String → Bool) (db : DBState) : List String :=
  (db.fts.filter (fun r => P r.text)).map (fun r => r.chunk_id)

/-- Reference answer: the chunk_ids of the canonical chunks whose current
text matches the predicate. -/
def chunksQuery (P : String → Bool) (db : DBState) : List String :=
  (db.chunks.filter (fun r => P r.text)).map (fun r => r.chunk_id)

theorem reachable_inv {db : DBState} (h : Reachable db) :
    (db.chunks.map Row.rowid).Nodup ∧ ∀ r : Row, r ∈ db.fts ↔ r ∈ db.chunks := by
  induction h with
  | init => exact ⟨List.nodup_nil, by simp⟩
  | insert h r fresh ih =>
    obtain ⟨hnd, hiff⟩ := ih
    constructor
    · simp only [db_insert, List.map_append, List.map_cons, List.map_nil]
      rw [List.nodup_append]
      refine ⟨hnd, by simp, ?_⟩
      intro a ha
      simp only [List.mem_singleton]
      intro hb
      subst hb
      obtain ⟨r', hr', hrw⟩ := List.mem_map.mp ha
      exact fresh r' hr' hrw
    · intro r'
      simp only [db_insert, List.mem_append, List.mem_singleton]
      rw [hiff r']
  | delete h rid ih =>
    obtain ⟨hnd, hiff⟩ := ih
    refine ⟨?_, ?_⟩
    · exact ((List.filter_sublist _).map Row.rowid).nodup hnd
    · intro r
      simp only [db_delete, List.mem_filter]
      rw [hiff r]
  | update h rid cid t ih =>
    obtain ⟨hnd, hiff⟩ := ih
    rename_i db0
    constructor
    · have hmr : ((db0.chunks.map
          (fun r => if r.rowid = rid then (⟨rid, cid, t⟩ : Row) else r)).map Row.rowid)
          = db0.chunks.map Row.rowid := by
        rw [List.map_map]
        apply List.map_congr_left
        intro r _
        by_cases hr : r.rowid = rid <;> simp [hr]
      simp only [db_update]
      rw [hmr]
      exact hnd
    · intro r
      simp only [db_update, List.mem_append, List.mem_filter, List.mem_map, bne_iff_ne,
        ne_eq, beq_iff_eq]
      constructor
      · rintro (⟨hr, hne⟩ | ⟨x, ⟨hx, hxr⟩, rfl⟩)
        · exact ⟨r, (hiff r).mp hr, by simp [hne]⟩
        · exact ⟨x, hx, by simp [hxr]⟩
      · rintro ⟨x, hx, rfl⟩
        by_cases hxr : x.rowid = rid
        · right
          exact ⟨x, ⟨hx, hxr⟩, by simp [hxr]⟩
        · left
          simp only [hxr, if_false]
          exact ⟨(hiff x).mpr hx, not_false⟩

/-- C2: after any sequence of insert, update, and delete operations on the
canonical chunks table, a full-text query against chunks_fts returns
exactly the set of chunk_ids whose current canonical text matches the
query: membership in the fts answer coincides with membership in the
canonical answer for every match predicate — no stale entries and no
missing entries. -/
theorem C2_fts_consistency {db : DBState} (h : Reachable db) :
    ∀ (P : String → Bool) (cid : String),
      cid ∈ ftsQuery P db ↔ cid ∈ chunksQuery P db := by
  have hiff := (reachable_inv h).2
  intro P cid
  simp only [ftsQuery, chunksQuery, List.mem_map, List.mem_filter]
  constructor
  · rintro ⟨r, ⟨hr, hP⟩, rfl⟩
    exact ⟨r, ⟨(hiff r).mp hr, hP⟩, rfl⟩
  · rintro ⟨r, ⟨hr, hP⟩, rfl⟩
    exact ⟨r, ⟨(hiff r).mpr hr, hP⟩, rfl⟩

/-- Match predicate for the C2 witness scenario: the updated text. -/
def matchesBattery (t : String) : Bool := t == "battery lifetime"

/-- Match predicate for the C2 witness scenario: the original text. -/
def matchesWireless (t : String) : Bool := t == "wireless sensor"

/-- The literal C2 scenario: insert a chunk with text "wireless sensor",
then update its text to "battery lifetime". -/
def scenarioDB : DBState :=
  db_update (db_insert ⟨[], []⟩ ⟨0, "doc_0_chunk_0", "wireless sensor"⟩) 0
    "doc_0_chunk_0" "battery lifetime"

/-- Witness for C2 on the literal insert-then-update scenario: the fts
answer agrees with the canonical answer, the query matching the new text
returns exactly the chunk, and the query matching the old text returns
nothing. -/
theorem C2_fts_consistency_witness :
    ("doc_0_chunk_0" ∈ ftsQuery matchesBattery scenarioDB ↔
      "doc_0_chunk_0" ∈ chunksQuery matchesBattery scenarioDB) ∧
    ftsQuery matchesBattery scenarioDB = ["doc_0_chunk_0"] ∧
    ftsQuery matchesWireless scenarioDB = [] :=
  ⟨C2_fts_consistency
      (Reachable.update (Reachable.insert Reachable.init _ (by simp)) 0
        "doc_0_chunk_0" "battery lifetime")
      matchesBattery "doc_0_chunk_0",
    by decide, by decide⟩

/-! Embedding of the index build and search pipeline of src/app/search.py
and the `/search` endpoint of src/app/main.py.  Float vector components
and scores are modelled as rationals; the sentence-transformer embedding
model is an external collaborator and is passed in as a function. -/

/-- Embedding vector. -/
abbrev Vec := List ℚ

/-- Metadata record that build_faiss_index stores for one position in
meta.json: `{"id": ..., "title": ...}`. -/
structure MetaRec where
  id : String
  title : String
deriving DecidableEq

/-- Chunk record of data/processed/documents.jsonl, restricted to the
fields build_faiss_index reads. -/
structure Doc where
  id : String
  title : String
  text : String
deriving DecidableEq

/-- The persisted pair: the FAISS IndexFlatL2 contents (stored vectors in
insertion order) and the meta.json mapping, position i to record i. -/
structure IndexState where
  vectors : List Vec
  meta : List MetaRec
deriving DecidableEq

/-- One search answer as assembled by semantic_search. -/
structure SearchResult where
  doc_id : String
  title : String
  score : ℚ
deriving DecidableEq

/-- Python exceptions the embedded pipeline can surface, together with the
spec-level error names that the source never raises; carrying the latter
lets theorems state their absence. -/
inductive PyErr where
  | keyError
  | typeError
  | assertionError
  | unknownMetricError
  | invalidArgumentError
deriving DecidableEq

/-- Squared L2 distance, the score reported by FAISS IndexFlatL2. -/
def l2sq (u v : Vec) : ℚ := (List.zipWith (fun a b => (a - b) * (a - b)) u v).sum

/-- Ranking order on (index, score) candidates: ascending score. -/
def scoreLE (a b : Int × ℚ) : Prop := a.2 ≤ b.2

instance : DecidableRel scoreLE := fun a b => inferInstanceAs (Decidable (a.2 ≤ b.2))

instance : IsTotal (Int × ℚ) scoreLE := ⟨fun a b => le_total a.2 b.2⟩

instance : IsTrans (Int × ℚ) scoreLE := ⟨fun _ _ _ h1 h2 => le_trans h1 h2⟩

/-- Placeholder for the large float FAISS reports for padded entries. -/
def padScore : ℚ := 3402823 * 10 ^ 32

/-- FAISS `index.search(query_vector, k)` on an IndexFlatL2 holding
`vecs`, for one query: the faiss python wrapper asserts `k > 0`
(class_wrappers.py, `assert k > 0`); the exact brute-force search scores
every stored vector by squared L2 distance and returns the k best in
ascending order; when k exceeds the number of stored vectors the result
rows are padded with index -1 and a large distance (documented FAISS
behaviour when there are not enough results). -/
def faiss_search_flat_l2 (vecs : List Vec) (q : Vec) (k : Nat) :
    Except PyErr (List (Int × ℚ)) :=
  if k = 0 then .error .assertionError
  else
    .ok ((List.insertionSort scoreLE
        (vecs.enum.map (fun p => ((p.1 : Int), l2sq q p.2)))).take k
      ++ List.replicate (k - vecs.length) (-1, padScore))

/-- The dictionary lookup `meta[str(idx)]` of semantic_search: meta.json
has keys "0" .. "N-1", so a negative or out-of-range index raises
KeyError. -/
def lookupMeta (meta : List MetaRec) (idx : Int) : Except PyErr MetaRec :=
  if 0 ≤ idx then
    match meta[idx.toNat]? with
    | some m => .ok m
    | none => .error .keyError
  else
    .error .keyError

/-- The result-assembly loop of semantic_search (src/app/search.py,
lines 101-107): iterate over the (score, index) rows in FAISS order,
resolve each index through the metadata dictionary, and append a result;
the first failed lookup propagates as the raised exception. -/
def buildResults (meta : List MetaRec) :
    List (Int × ℚ) → Except PyErr (List SearchResult)
  | [] => .ok []
  | p :: ps =>
    match lookupMeta meta p.1 with
    | .error e => .error e
    | .ok m =>
      match buildResults meta ps with
      | .error e => .error e
      | .ok rs => .ok (⟨m.id, m.title, p.2⟩ :: rs)

/-- Embedding of semantic_search (src/app/search.py, lines 89-107): load
the persisted pair, encode the query (the embedding model is external, so
the encoded query vector is the argument), run the FAISS search, then
resolve every returned row through meta.  The function declares no metric
parameter, exactly as in the source. -/
def semantic_search (st : IndexState) (query_vec : Vec) (top_k : Nat) :
    Except PyErr (List SearchResult) :=
  match faiss_search_flat_l2 st.vectors query_vec top_k with
  | .error e => .error e
  | .ok hits => buildResults st.meta hits

/-- Embedding of build_faiss_index (src/app/search.py, lines 38-69): embed
every chunk text in document order (`encode` stands for the external
model.encode), add all embeddings to a fresh IndexFlatL2 in that same
order, and write meta.json mapping each position i to the id and title of
docs[i]. -/
def build_faiss_index (encode : String → Vec) (docs : List Doc) : IndexState :=
  { vectors := docs.map (fun d => encode d.text),
    meta := docs.map (fun d => ⟨d.id, d.title⟩) }

/-- Parameter names declared by `def semantic_search(query, top_k=5)` in
src/app/search.py, line 89. -/
def semanticSearchParams : List String := ["query", "top_k"]

/-- Keyword arguments passed by the `/search` handler in src/app/main.py,
lines 9-13: `semantic_search(query=..., top_k=..., metric=metric)`. -/
def mainSearchCallKwargs : List String := ["query", "top_k", "metric"]

/-- Python keyword-call semantics for a callee without a **kwargs
parameter: a keyword argument that is not a declared parameter raises
TypeError before the callee body runs. -/
def pyKwCall (params kwargs : List String)
    (body : Except PyErr (List SearchResult)) : Except PyErr (List SearchResult) :=
  if kwargs.all (fun k => params.contains k) then body else .error .typeError

/-- Embedding of the `/search` endpoint body (src/app/main.py, lines
7-14): it invokes semantic_search with the keyword arguments query, top_k
and metric. -/
def main_search (st : IndexState) (query_vec : Vec) (top_k : Nat)
    (_metric : String) : Except PyErr (List SearchResult) :=
  pyKwCall semanticSearchParams mainSearchCallKwargs
    (semantic_search st query_vec top_k)

/-- C8: after every index build over N chunk records, the number of
stored vectors equals the number of metadata entries (both N), and
metadata position i holds the id and title of the i-th record of the same
iteration order used to add the vectors; the built pair is never mutated
afterwards, so the equality holds at all times after build. -/
theorem C8_build_lockstep (encode : String → Vec) (docs : List Doc) :
    (build_faiss_index encode docs).vectors.length = docs.length ∧
    (build_faiss_index encode docs).meta.length = docs.length ∧
    ∀ i : Nat, (build_faiss_index encode docs).meta[i]?
      = (docs[i]?).map (fun d => ⟨d.id, d.title⟩) := by
  refine ⟨by simp [build_faiss_index], by simp [build_faiss_index], ?_⟩
  intro i
  simp [build_faiss_index]

theorem lookupMeta_cases (meta : List MetaRec) (idx : Int) :
    (∃ m, lookupMeta meta idx = .ok m) ∨ lookupMeta meta idx = .error .keyError := by
  unfold lookupMeta
  by_cases h : 0 ≤ idx
  · rw [if_pos h]
    cases hm : meta[idx.toNat]? with
    | none => exact Or.inr rfl
    | some m => exact Or.inl ⟨m, rfl⟩
  · rw [if_neg h]
    exact Or.inr rfl

theorem buildResults_ok (meta : List MetaRec) (d : MetaRec)
    (l : List (Int × ℚ))
    (h : ∀ p ∈ l, 0 ≤ p.1 ∧ p.1.toNat < meta.length) :
    buildResults meta l = .ok (l.map (fun p =>
      ⟨((meta[p.1.toNat]?).getD d).id, ((meta[p.1.toNat]?).getD d).title, p.2⟩)) := by
  induction l with
  | nil => rfl
  | cons p ps ih =>
    obtain ⟨h0, hlt⟩ := h p (by simp)
    have hsome : meta[p.1.toNat]? = some (meta.get ⟨p.1.toNat, hlt⟩) := by
      rw [List.getElem?_eq_getElem hlt]
      rfl
    have hm : lookupMeta meta p.1 = .ok (meta.get ⟨p.1.toNat, hlt⟩) := by
      unfold lookupMeta
      rw [if_pos h0, hsome]
    simp only [buildResults, hm, ih (fun x hx => h x (by simp [hx])), List.map_cons,
      hsome, Option.getD_some]

theorem buildResults_err_cases (meta : List MetaRec) (l : List (Int × ℚ)) :
    (∃ rs, buildResults meta l = .ok rs) ∨ buildResults meta l = .error .keyError := by
  induction l with
  | nil => exact Or.inl ⟨[], rfl⟩
  | cons p ps ih =>
    rcases lookupMeta_cases meta p.1 with ⟨m, hm⟩ | hm
    · rcases ih with ⟨rs, hrs⟩ | hrs
      · exact Or.inl ⟨⟨m.id, m.title, p.2⟩ :: rs, by simp only [buildResults, hm, hrs]⟩
      · exact Or.inr (by simp only [buildResults, hm, hrs])
    · exact Or.inr (by simp only [buildResults, hm])

/-- C5 (amended): for every built index pair holding N vectors and N
metadata entries, and every top_k with 0 < top_k ≤ N, semantic_search
returns a result list of length exactly top_k = min(top_k, N), ordered by
non-decreasing L2 score.  The claim's further part — that top_k > N still
returns a valid list of N results — is refuted separately at a concrete
input. -/
theorem C5_search_ordered (st : IndexState) (q : Vec) (top_k : Nat)
    (hmeta : st.meta.length = st.vectors.length)
    (hpos : 0 < top_k) (hle : top_k ≤ st.vectors.length) :
    ∃ rs, semantic_search st q top_k = .ok rs ∧
      rs.length = min top_k st.vectors.length ∧
      (rs.map (fun r => r.score)).Pairwise (· ≤ ·) := by
  have hk0 : top_k ≠ 0 := by omega
  have hpad : top_k - st.vectors.length = 0 := by omega
  have hfa : faiss_search_flat_l2 st.vectors q top_k
      = .ok ((List.insertionSort scoreLE
          (st.vectors.enum.map (fun p => ((p.1 : Int), l2sq q p.2)))).take top_k) := by
    unfold faiss_search_flat_l2
    rw [if_neg hk0, hpad]
    simp
  have hvalid : ∀ p ∈ (List.insertionSort scoreLE
      (st.vectors.enum.map (fun p => ((p.1 : Int), l2sq q p.2)))).take top_k,
      0 ≤ p.1 ∧ p.1.toNat < st.meta.length := by
    intro p hp
    have hp2 : p ∈ st.vectors.enum.map (fun p => ((p.1 : Int), l2sq q p.2)) :=
      (List.perm_insertionSort scoreLE _).mem_iff.mp (List.mem_of_mem_take hp)
    obtain ⟨⟨j, v⟩, hjv, rfl⟩ := List.mem_map.mp hp2
    have hj : st.vectors[j]? = some v := List.mem_enum_iff_getElem?.mp hjv
    have hjlt : j < st.vectors.length := by
      by_contra hcon
      rw [List.getElem?_eq_none (by omega)] at hj
      exact Option.noConfusion hj
    refine ⟨Int.natCast_nonneg j, ?_⟩
    rw [hmeta]
    simpa using hjlt
  obtain hb := buildResults_ok st.meta ⟨"", ""⟩ _ hvalid
  refine ⟨List.map (fun p =>
      (⟨((st.meta[p.1.toNat]?).getD ⟨"", ""⟩).id,
        ((st.meta[p.1.toNat]?).getD ⟨"", ""⟩).title, p.2⟩ : SearchResult))
      ((List.insertionSort scoreLE
        (st.vectors.enum.map (fun p => ((p.1 : Int), l2sq q p.2)))).take top_k),
    ?_, ?_, ?_⟩
  · unfold semantic_search
    rw [hfa]
    exact hb
  · rw [List.length_map, List.length_take, List.length_insertionSort, List.length_map,
      List.enum_length]
  · have hsorted : List.Pairwise scoreLE ((List.insertionSort scoreLE
        (st.vectors.enum.map (fun p => ((p.1 : Int), l2sq q p.2)))).take top_k) :=
      (List.sorted_insertionSort scoreLE _).sublist (List.take_sublist _ _)
    rw [List.map_map]
    exact hsorted.map _ (fun a b hab => hab)

/-- Index pair with two stored vectors used as the C5 witness input. -/
def twoVecIndex : IndexState :=
  ⟨[[0], [1]], [⟨"doc_0_chunk_0", "t0"⟩, ⟨"doc_0_chunk_1", "t1"⟩]⟩

/-- Witness for C5 on a concrete two-vector index with top_k = 2. -/
theorem C5_search_ordered_witness :
    ∃ rs, semantic_search twoVecIndex [0] 2 = .ok rs ∧
      rs.length = min 2 twoVecIndex.vectors.length ∧
      (rs.map (fun r => r.score)).Pairwise (· ≤ ·) :=
  C5_search_ordered twoVecIndex [0] 2 rfl (by decide) (by norm_num [twoVecIndex])

/-- Index pair with one stored vector used in the C5 and C7
counterexamples. -/
def oneVecIndex : IndexState := ⟨[[0]], [⟨"doc_0_chunk_0", "t0"⟩]⟩

/-- C5 counterexample: querying the one-vector index with top_k = 2 does
not return a valid one-element list — FAISS pads the second row with index
-1, and meta["-1"] raises KeyError, so the whole search fails. -/
theorem C5_search_counterexample :
    semantic_search oneVecIndex [0] 2 = .error .keyError := rfl

/-- C6 (evaluation of the code at the failing input): every request
through the `/search` endpoint fails with TypeError, because the handler
passes the keyword argument `metric` and semantic_search declares no such
parameter (src/app/main.py furthermore references the undefined name
`Query`, so the module cannot even be imported); and semantic_search can
never raise UnknownMetricError on any input — no metric dispatch exists
anywhere in src. -/
theorem C6_metric_dispatch_missing (st : IndexState) (q : Vec) (top_k : Nat)
    (metric : String) :
    main_search st q top_k metric = .error .typeError ∧
    ∀ (st' : IndexState) (q' : Vec) (k' : Nat),
      semantic_search st' q' k' ≠ .error .unknownMetricError := by
  constructor
  · unfold main_search pyKwCall
    rw [if_neg (by decide)]
  · intro st' q' k' hcon
    unfold semantic_search at hcon
    split at hcon
    · rename_i e heq
      obtain rfl : e = PyErr.unknownMetricError := Except.error.inj hcon
      unfold faiss_search_flat_l2 at heq
      by_cases hk : k' = 0
      · rw [if_pos hk] at heq
        exact PyErr.noConfusion (Except.error.inj heq)
      · rw [if_neg hk] at heq
        exact Except.noConfusion heq
    · rename_i hits heq
      rcases buildResults_err_cases st'.meta hits with ⟨rs, hrs⟩ | hrs <;>
        rw [hrs] at hcon
      · exact Except.noConfusion hcon
      · exact PyErr.noConfusion (Except.error.inj hcon)

/-- C7 (amended): src/app/search.py performs no top_k validation of its
own; top_k = 0 reaches the faiss wrapper, whose `assert k > 0` raises
AssertionError — not the InvalidArgumentError the specification names,
which appears nowhere in the repository.  (A negative top_k trips the same
assert; the Nat embedding represents all non-positive values by 0.) -/
theorem C7_no_topk_validation (st : IndexState) (q : Vec) :
    semantic_search st q 0 = .error .assertionError ∧
    semantic_search st q 0 ≠ .error .invalidArgumentError := by
  constructor
  · rfl
  · intro hcon
    have h1 : semantic_search st q 0 = .error .assertionError := rfl
    rw [h1] at hcon
    exact PyErr.noConfusion (Except.error.inj hcon)

/-- C7 counterexample: at the concrete input top_k = 0 the search raises
the faiss wrapper's AssertionError, which is not an InvalidArgumentError. -/
theorem C7_counterexample :
    semantic_search oneVecIndex [0] 0 = .error .assertionError ∧
    PyErr.assertionError ≠ PyErr.invalidArgumentError :=
  ⟨rfl, by decide⟩

end SemanticSearch
